import Mathlib

/-!
# Verification of the `sorter` Go package

Shallow embedding of `src/sorter/sorter.go`: an abstract `Sortable`
collection (Length / Less / Exchange), the three sorting algorithms
(`Selection`, `Insertion`, `Shell`), and the reflection-based
multi-key adapter (`multiKeySorter`, `By.Sort`).

The algorithms are state-passing translations of the Go loops.  Each
algorithm additionally records the sequence of `Less` / `Exchange`
calls it makes against the collection interface as a list of events
(`Ev`), so that claims about call counts and call sequences can be
stated; the first component of the result is the final collection
state, exactly as the Go code leaves it.
-/

namespace Sorter

/-- One call made against the `Sortable` interface: `less i j` records a
call `coll.Less(i, j)` and `exch i j` records a call `coll.Exchange(i, j)`. -/
inductive Ev
  | less (i j : Nat)
  | exch (i j : Nat)
deriving DecidableEq, Repr

/-- The Go `Sortable` interface: `Length() int`, `Less(i, j int) bool`,
`Exchange(i, j int)`.  A collection is a state `σ` together with these
three operations; `exchange` returns the mutated state. -/
structure Sortable (σ : Type*) where
  length : σ → Nat
  less : σ → Nat → Nat → Bool
  exchange : σ → Nat → Nat → σ

/-- Go slice element swap, as performed by `multiKeySorter.Exchange`:
`temp := coll[i]; coll[i] = coll[j]; coll[j] = temp`.  Out-of-range reads
yield `default` and out-of-range writes are dropped, but the algorithms
only ever exchange in-range positions. -/
def exchange [Inhabited α] (l : List α) (i j : Nat) : List α :=
  (l.set i (l.getI j)).set j (l.getI i)

/-- A Go slice of `α` with a comparison function `lt`, viewed as a
`Sortable`: `Less i j` compares the elements at positions `i` and `j`,
`Exchange` swaps them in place. -/
def listColl (lt : α → α → Bool) [Inhabited α] : Sortable (List α) where
  length := List.length
  less := fun l i j => lt (l.getI i) (l.getI j)
  exchange := exchange

/-! ## Selection sort

```go
func Selection(coll Sortable, bgn, end int) {
    for i := bgn; i < end; i++ {
        min := i
        for j := i + 1; j < end && coll.Less(j, min); j++ {
            min = j
        }
        coll.Exchange(i, min)
    }
}
```
Note that `coll.Less(j, min)` sits in the inner loop's guard: the scan
stops at the first position that is not less than the current minimum. -/

/-- The inner loop of `Selection`: `for j := i+1; j < end && coll.Less(j, min); j++ { min = j }`.
Returns the final `min` together with the `Less` calls made (the state is
never modified by the scan).  A `less` event is emitted exactly when
`j < end` (Go's `&&` short-circuits). -/
def selScan (C : Sortable σ) (s : σ) (e : Nat) (j min : Nat) : Nat × List Ev :=
  if j < e then
    if C.less s j min then
      let r := selScan C s e (j + 1) j
      (r.1, Ev.less j min :: r.2)
    else
      (min, [Ev.less j min])
  else
    (min, [])
termination_by e - j
decreasing_by omega

/-- The outer loop of `Selection`, from `i` up to `e`. -/
def selLoop (C : Sortable σ) (e : Nat) (s : σ) (i : Nat) : σ × List Ev :=
  if i < e then
    let m := selScan C s e (i + 1) i
    let r := selLoop C e (C.exchange s i m.1) (i + 1)
    (r.1, m.2 ++ Ev.exch i m.1 :: r.2)
  else
    (s, [])
termination_by e - i
decreasing_by omega

/-- `Selection(coll, bgn, end)` from the source. -/
def Selection (C : Sortable σ) (s : σ) (bgn e : Nat) : σ × List Ev :=
  selLoop C e s bgn

/-! ## Insertion sort

```go
func Insertion(coll Sortable, bgn, end int) {
    for i := bgn; i < end; i++ {
        for j := i; j > bgn && coll.Less(j, j-1); j-- {
            coll.Exchange(j, j - 1)
        }
    }
}
``` -/

/-- The inner loop of `Insertion`: `for j := i; j > bgn && coll.Less(j, j-1); j-- { coll.Exchange(j, j-1) }`. -/
def insInner (C : Sortable σ) (bgn : Nat) (s : σ) (j : Nat) : σ × List Ev :=
  if bgn < j then
    if C.less s j (j - 1) then
      let r := insInner C bgn (C.exchange s j (j - 1)) (j - 1)
      (r.1, Ev.less j (j - 1) :: Ev.exch j (j - 1) :: r.2)
    else
      (s, [Ev.less j (j - 1)])
  else
    (s, [])
termination_by j
decreasing_by omega

/-- The outer loop of `Insertion`, from `i` up to `e`. -/
def insLoop (C : Sortable σ) (bgn e : Nat) (s : σ) (i : Nat) : σ × List Ev :=
  if i < e then
    let r1 := insInner C bgn s i
    let r2 := insLoop C bgn e r1.1 (i + 1)
    (r2.1, r1.2 ++ r2.2)
  else
    (s, [])
termination_by e - i
decreasing_by omega

/-- `Insertion(coll, bgn, end)` from the source. -/
def Insertion (C : Sortable σ) (s : σ) (bgn e : Nat) : σ × List Ev :=
  insLoop C bgn e s bgn

/-! ## Shell sort

```go
func Shell(coll Sortable, bgn, end int) {
    h := 1
    for h < (end - bgn) / 3 {
        h = 3 * h + 1
    }
    for h >= 1 {
        for i := h; i < (end - bgn); i++ {
            for j := i; j >= h && coll.Less(j, j - h); j -= h {
                coll.Exchange(j, j - h)
            }
        }
        h = h / 3
    }
}
```
Note that the loops range over `[h, end-bgn)` and every `Less` /
`Exchange` call uses the absolute positions `j` and `j-h`: `bgn` enters
only through the difference `end - bgn`. -/

/-- The gap-initialization loop of `Shell`: `h := 1; for h < n/3 { h = 3*h + 1 }`
(started at an arbitrary `h`). -/
def shellGap (n h : Nat) : Nat :=
  if h < n / 3 then shellGap n (3 * h + 1) else h
termination_by n / 3 - h
decreasing_by omega

/-- The innermost loop of `Shell`: `for j := i; j >= h && coll.Less(j, j-h); j -= h { coll.Exchange(j, j-h) }`.
The outer pass loop only runs it with `h >= 1`, which the hypothesis
`hh` records (and which makes the loop terminate). -/
def shellInner (C : Sortable σ) (h : Nat) (hh : 0 < h) (s : σ) (j : Nat) : σ × List Ev :=
  if h ≤ j then
    if C.less s j (j - h) then
      let r := shellInner C h hh (C.exchange s j (j - h)) (j - h)
      (r.1, Ev.less j (j - h) :: Ev.exch j (j - h) :: r.2)
    else
      (s, [Ev.less j (j - h)])
  else
    (s, [])
termination_by j
decreasing_by omega

/-- The middle loop of `Shell`: `for i := h; i < n; i++`, from `i` up to `n`. -/
def shellILoop (C : Sortable σ) (h : Nat) (hh : 0 < h) (n : Nat) (s : σ) (i : Nat) : σ × List Ev :=
  if i < n then
    let r1 := shellInner C h hh s i
    let r2 := shellILoop C h hh n r1.1 (i + 1)
    (r2.1, r1.2 ++ r2.2)
  else
    (s, [])
termination_by n - i
decreasing_by omega

/-- The pass loop of `Shell`: `for h >= 1 { ...; h = h / 3 }`. -/
def shellPasses (C : Sortable σ) (n : Nat) (s : σ) (h : Nat) : σ × List Ev :=
  if hh : 1 ≤ h then
    let r1 := shellILoop C h hh n s h
    let r2 := shellPasses C n r1.1 (h / 3)
    (r2.1, r1.2 ++ r2.2)
  else
    (s, [])
termination_by h
decreasing_by exact Nat.div_lt_self hh (by omega)

/-- `Shell(coll, bgn, end)` from the source. -/
def Shell (C : Sortable σ) (s : σ) (bgn e : Nat) : σ × List Ev :=
  shellPasses C (e - bgn) s (shellGap (e - bgn) 1)

/-! ## The multi-key adapter

`multiKeySorter` stores an `interface{}` value `coll` and a comparator
`lesser`.  Each method reflectively checks that `coll` is a slice and
panics with `"passing a non-slice type"` otherwise.  A Go `interface{}`
argument is modelled by `CollArg`: either a slice (with its elements) or
some non-slice value; a panic is modelled as `Except.error`. -/

/-- The `interface{}` value handed to `By.Sort`: a slice, or anything else. -/
inductive CollArg (α : Type*)
  | slice (l : List α)
  | nonSlice

/-- `multiKeySorter` from the source: the wrapped collection and the
`lesser` comparison function. -/
structure multiKeySorter (α : Type*) where
  coll : CollArg α
  lesser : α → α → Bool

/-- `multiKeySorter.Length`: the slice's length, or a panic on a non-slice. -/
def multiKeySorter.Length (mks : multiKeySorter α) : Except String Nat :=
  match mks.coll with
  | .slice l => .ok l.length
  | .nonSlice => .error "passing a non-slice type"

/-- `multiKeySorter.Exchange`: swaps elements `i` and `j` of the slice via a
temporary (`temp := coll[i]; coll[i] = coll[j]; coll[j] = temp`), or panics
on a non-slice. -/
def multiKeySorter.Exchange [Inhabited α] (mks : multiKeySorter α) (i j : Nat) :
    Except String (multiKeySorter α) :=
  match mks.coll with
  | .slice l =>
      let temp := l.getI i
      .ok ⟨.slice ((l.set i (l.getI j)).set j temp), mks.lesser⟩
  | .nonSlice => .error "passing a non-slice type"

/-- `multiKeySorter.Less`: applies `lesser` to the elements at positions
`i` and `j` of the slice, or panics on a non-slice. -/
def multiKeySorter.Less [Inhabited α] (mks : multiKeySorter α) (i j : Nat) :
    Except String Bool :=
  match mks.coll with
  | .slice l => .ok (mks.lesser (l.getI i) (l.getI j))
  | .nonSlice => .error "passing a non-slice type"

/-- The Go type `By`: a two-argument comparison function. -/
def By (α : Type*) : Type _ := α → α → Bool

/-- `By.Sort` from the source: builds a `multiKeySorter` and calls
`Shell(mks, 0, mks.Length())`.  On a non-slice argument, `mks.Length()`
panics before `Shell` runs; on a slice, every interface call lands in the
slice branch, so the sort is `Shell` over the slice with the element-wise
comparison. -/
def By.Sort [Inhabited α] (b : By α) (coll : CollArg α) : Except String (CollArg α) :=
  match coll with
  | .nonSlice => .error "passing a non-slice type"
  | .slice l => .ok (.slice (Shell (listColl b) l 0 l.length).1)

/-! ## Derived notions used by the claims -/

/-- Integer comparison `<`, the "natural less-than ordering" of the scenarios. -/
def ltInt : Int → Int → Bool := fun a b => decide (a < b)

/-- The range `[bgn, e)` of `l` is non-decreasing under `lt`:
for every `k` in `[bgn, e-1]`, not `less(k+1, k)`.  (The bound `k < e` is
redundant given `k + 1 < e`; it makes the predicate decidable.) -/
def sortedRange (lt : α → α → Bool) [Inhabited α] (l : List α) (bgn e : Nat) : Prop :=
  ∀ k, k < e → bgn ≤ k → k + 1 < e → lt (l.getI (k + 1)) (l.getI k) = false

instance (lt : α → α → Bool) [Inhabited α] (l : List α) (bgn e : Nat) :
    Decidable (sortedRange lt l bgn e) := by
  unfold sortedRange; infer_instance

/-- `true` iff the event is an `Exchange` call. -/
def Ev.isExch : Ev → Bool
  | .exch _ _ => true
  | .less _ _ => false

/-- A trace containing no `Exchange` calls. -/
def noExch (tr : List Ev) : Bool :=
  tr.all fun ev => !ev.isExch

/-- A trace whose every `Exchange` call is a self-exchange `Exchange(i, i)`. -/
def selfExchOnly (tr : List Ev) : Bool :=
  tr.all fun ev =>
    match ev with
    | .exch i j => i == j
    | .less _ _ => true

/-- The elements stored at positions `[lo, hi)`, as a multiset. -/
def sliceMS [Inhabited α] (l : List α) (lo hi : Nat) : Multiset α :=
  (((l.drop lo).take (hi - lo) : List α) : Multiset α)

end Sorter

namespace Sorter

/-! ## Basic facts about `exchange` -/

theorem length_exchange [Inhabited α] (l : List α) (i j : Nat) :
    (exchange l i j).length = l.length := by
  simp [exchange]

theorem getI_exchange_ne [Inhabited α] (l : List α) {i j k : Nat}
    (h1 : k ≠ i) (h2 : k ≠ j) : (exchange l i j).getI k = l.getI k := by
  simp [exchange, List.getI_eq_iget_getElem?,
    List.getElem?_set_ne (Ne.symm h2), List.getElem?_set_ne (Ne.symm h1)]

theorem set_getI_self [Inhabited α] : ∀ (l : List α) (i : Nat), l.set i (l.getI i) = l := by
  intro l
  induction l with
  | nil => intro i; rfl
  | cons a t ih =>
    intro i
    cases i with
    | zero => simp [List.getI_cons_zero]
    | succ n => simp [List.getI_cons_succ, ih]

theorem exchange_self [Inhabited α] (l : List α) (i : Nat) : exchange l i i = l := by
  unfold exchange
  rw [List.set_set, set_getI_self]

theorem exchange_comm [Inhabited α] (l : List α) (i j : Nat) :
    exchange l i j = exchange l j i := by
  by_cases h : i = j
  · subst h; rfl
  · unfold exchange
    rw [List.set_comm _ _ _ h]

theorem getI_cons_swap_perm [Inhabited α] :
    ∀ (l : List α) (j : Nat) (x : α), j < l.length →
      List.Perm (l.getI j :: l.set j x) (x :: l) := by
  intro l
  induction l with
  | nil => intro j x h; simp at h
  | cons a t ih =>
    intro j x h
    cases j with
    | zero =>
      simp only [List.getI_cons_zero, List.set_cons_zero]
      exact List.Perm.swap x a t
    | succ n =>
      simp only [List.getI_cons_succ, List.set_cons_succ]
      have hn : n < t.length := by simpa using h
      exact ((List.Perm.swap a (t.getI n) (t.set n x)).trans
        ((ih n x hn).cons a)).trans (List.Perm.swap x a t)

theorem perm_exchange [Inhabited α] :
    ∀ (l : List α) (i j : Nat), i < l.length → j < l.length →
      List.Perm (exchange l i j) l := by
  intro l
  induction l with
  | nil => intro i j hi _; simp at hi
  | cons a t ih =>
    intro i j hi hj
    cases i with
    | zero =>
      cases j with
      | zero => rw [exchange_self]
      | succ m =>
        have hm : m < t.length := by simpa using hj
        show List.Perm (( (a :: t).set 0 ((a :: t).getI (m+1))).set (m+1) ((a :: t).getI 0)) (a :: t)
        simp only [List.getI_cons_succ, List.getI_cons_zero, List.set_cons_zero,
          List.set_cons_succ]
        exact getI_cons_swap_perm t m a hm
    | succ n =>
      cases j with
      | zero =>
        rw [exchange_comm]
        have hn : n < t.length := by simpa using hi
        show List.Perm (( (a :: t).set 0 ((a :: t).getI (n+1))).set (n+1) ((a :: t).getI 0)) (a :: t)
        simp only [List.getI_cons_succ, List.getI_cons_zero, List.set_cons_zero,
          List.set_cons_succ]
        exact getI_cons_swap_perm t n a hn
      | succ m =>
        have hn : n < t.length := by simpa using hi
        have hm : m < t.length := by simpa using hj
        show List.Perm (( (a :: t).set (n+1) ((a :: t).getI (m+1))).set (m+1) ((a :: t).getI (n+1))) (a :: t)
        simp only [List.getI_cons_succ, List.set_cons_succ]
        exact ((ih n m hn hm).cons a)

end Sorter

namespace Sorter

/-! ## Permutation preservation machinery -/

/-- `l'` differs from `l` only by a rearrangement of positions `[lo, hi)`:
the length is unchanged, the whole list is a permutation of the original,
and every position outside `[lo, hi)` holds its original element. -/
def Preserves [Inhabited α] (lo hi : Nat) (l l' : List α) : Prop :=
  l'.length = l.length ∧ List.Perm l' l ∧
    ∀ k, k < lo ∨ hi ≤ k → l'.getI k = l.getI k

theorem Preserves.refl [Inhabited α] (lo hi : Nat) (l : List α) : Preserves lo hi l l :=
  ⟨rfl, List.Perm.refl l, fun _ _ => rfl⟩

theorem Preserves.trans [Inhabited α] {lo hi : Nat} {l l' l'' : List α}
    (h1 : Preserves lo hi l l') (h2 : Preserves lo hi l' l'') :
    Preserves lo hi l l'' :=
  ⟨h2.1.trans h1.1, h2.2.1.trans h1.2.1, fun k hk => (h2.2.2 k hk).trans (h1.2.2 k hk)⟩

theorem preserves_exchange [Inhabited α] {lo hi i j : Nat} {l : List α}
    (hi1 : lo ≤ i) (hi2 : i < hi) (hj1 : lo ≤ j) (hj2 : j < hi) (hlen : hi ≤ l.length) :
    Preserves lo hi l (exchange l i j) :=
  ⟨length_exchange l i j, perm_exchange l i j (by omega) (by omega),
   fun k hk => getI_exchange_ne l (by omega) (by omega)⟩

theorem Preserves.take_eq [Inhabited α] {lo hi : Nat} {l l' : List α}
    (hp : Preserves lo hi l l') (hlo : lo ≤ hi) (hhi : hi ≤ l.length) :
    l'.take lo = l.take lo := by
  have hlen := hp.1
  apply List.ext_getElem?
  intro n
  by_cases hn : n < lo
  · rw [List.getElem?_take_of_lt hn, List.getElem?_take_of_lt hn]
    have h1 : n < l.length := by omega
    have h2 : n < l'.length := by omega
    rw [List.getElem?_eq_getElem h1, List.getElem?_eq_getElem h2]
    have hfr := hp.2.2 n (Or.inl hn)
    rw [List.getI_eq_getElem _ h2, List.getI_eq_getElem _ h1] at hfr
    rw [hfr]
  · rw [List.getElem?_eq_none (by simp; omega), List.getElem?_eq_none (by simp; omega)]

theorem Preserves.drop_eq [Inhabited α] {lo hi : Nat} {l l' : List α}
    (hp : Preserves lo hi l l') : l'.drop hi = l.drop hi := by
  have hlen := hp.1
  apply List.ext_getElem?
  intro n
  rw [List.getElem?_drop, List.getElem?_drop]
  by_cases hn : hi + n < l.length
  · have h2 : hi + n < l'.length := by omega
    rw [List.getElem?_eq_getElem hn, List.getElem?_eq_getElem h2]
    have hfr := hp.2.2 (hi + n) (Or.inr (by omega))
    rw [List.getI_eq_getElem _ h2, List.getI_eq_getElem _ hn] at hfr
    rw [hfr]
  · rw [List.getElem?_eq_none (by omega), List.getElem?_eq_none (by omega)]

theorem coe_eq_sliceMS_sum [Inhabited α] (x : List α) {lo hi : Nat}
    (hlo : lo ≤ hi) :
    (x : Multiset α) = ((x.take lo : List α) : Multiset α) + sliceMS x lo hi
      + ((x.drop hi : List α) : Multiset α) := by
  have h1 : (x.drop lo).take (hi - lo) ++ (x.drop lo).drop (hi - lo) = x.drop lo :=
    List.take_append_drop _ _
  have h2 : (x.drop lo).drop (hi - lo) = x.drop hi := by
    rw [List.drop_drop]
    congr 1
    omega
  rw [h2] at h1
  conv_lhs => rw [← List.take_append_drop lo x, ← h1]
  rw [← Multiset.coe_add, ← Multiset.coe_add]
  simp only [sliceMS]
  exact (add_assoc _ _ _).symm

theorem Preserves.sliceMS_eq [Inhabited α] {lo hi : Nat} {l l' : List α}
    (hp : Preserves lo hi l l') (hlo : lo ≤ hi) (hhi : hi ≤ l.length) :
    sliceMS l' lo hi = sliceMS l lo hi := by
  have hcoe : (l' : Multiset α) = (l : Multiset α) := Multiset.coe_eq_coe.mpr hp.2.1
  rw [coe_eq_sliceMS_sum l' hlo, coe_eq_sliceMS_sum l hlo,
    hp.take_eq hlo hhi, hp.drop_eq] at hcoe
  have := add_right_cancel hcoe
  exact add_left_cancel this

/-! ## Loop invariants: every algorithm only rearranges its work range -/

theorem selScan_bound (C : Sortable σ) (s : σ) (e : Nat) :
    ∀ (j min : Nat), min < e → min ≤ j →
      min ≤ (selScan C s e j min).1 ∧ (selScan C s e j min).1 < e := by
  intro j min
  induction j, min using selScan.induct C s e with
  | case1 j min hje hless ih =>
    intro hmin hle
    rw [selScan, if_pos hje, if_pos hless]
    simp only
    have := ih hje (by omega)
    exact ⟨by omega, this.2⟩
  | case2 j min hje hless =>
    intro hmin hle
    rw [selScan, if_pos hje, if_neg hless]
    exact ⟨Nat.le_refl min, hmin⟩
  | case3 j min hje =>
    intro hmin hle
    rw [selScan, if_neg hje]
    exact ⟨Nat.le_refl min, hmin⟩

theorem selLoop_preserves [Inhabited α] (lt : α → α → Bool) (e bgn : Nat) :
    ∀ (s : List α) (i : Nat), bgn ≤ i → e ≤ s.length →
      Preserves bgn e s (selLoop (listColl lt) e s i).1 := by
  intro s i
  induction s, i using selLoop.induct (listColl lt) e with
  | case1 s i hie mp ih =>
    intro hbi hlen
    rw [selLoop, if_pos hie]
    simp only
    have hmp : mp = selScan (listColl lt) s e (i + 1) i := rfl
    set m := (selScan (listColl lt) s e (i + 1) i).1 with hm
    have hb := selScan_bound (listColl lt) s e (i + 1) i hie (by omega)
    rw [← hm] at hb
    have hex : Preserves bgn e s ((listColl lt).exchange s i m) := by
      show Preserves bgn e s (exchange s i m)
      exact preserves_exchange hbi hie (by omega) (by omega) hlen
    have hrec := ih (by omega) (by rw [show ((listColl lt).exchange s i m).length
      = s.length from length_exchange s i m]; exact hlen)
    exact hex.trans hrec
  | case2 s i hie =>
    intro _ _
    rw [selLoop, if_neg hie]
    exact Preserves.refl bgn e s

theorem insInner_preserves [Inhabited α] (lt : α → α → Bool) (bgn e : Nat) :
    ∀ (s : List α) (j : Nat), j < e → e ≤ s.length →
      Preserves bgn e s (insInner (listColl lt) bgn s j).1 := by
  intro s j
  induction s, j using insInner.induct (listColl lt) bgn with
  | case1 s j hbj hless ih =>
    intro hje hlen
    rw [insInner, if_pos hbj, if_pos hless]
    simp only
    have hex : Preserves bgn e s ((listColl lt).exchange s j (j - 1)) := by
      show Preserves bgn e s (exchange s j (j - 1))
      exact preserves_exchange (by omega) hje (by omega) (by omega) hlen
    have hrec := ih (by omega) (by rw [show ((listColl lt).exchange s j (j - 1)).length
      = s.length from length_exchange s j (j - 1)]; exact hlen)
    exact hex.trans hrec
  | case2 s j hbj hless =>
    intro _ _
    rw [insInner, if_pos hbj, if_neg hless]
    exact Preserves.refl bgn e s
  | case3 s j hbj =>
    intro _ _
    rw [insInner, if_neg hbj]
    exact Preserves.refl bgn e s

theorem insLoop_preserves [Inhabited α] (lt : α → α → Bool) (bgn e : Nat) :
    ∀ (s : List α) (i : Nat), e ≤ s.length →
      Preserves bgn e s (insLoop (listColl lt) bgn e s i).1 := by
  intro s i
  induction s, i using insLoop.induct (listColl lt) bgn e with
  | case1 s i hie r1 ih =>
    intro hlen
    rw [insLoop, if_pos hie]
    simp only
    have h1 := insInner_preserves lt bgn e s i hie hlen
    have h2 := ih (by rw [h1.1]; exact hlen)
    exact h1.trans h2
  | case2 s i hie =>
    intro _
    rw [insLoop, if_neg hie]
    exact Preserves.refl bgn e s

theorem shellInner_preserves [Inhabited α] (lt : α → α → Bool) (h : Nat) (hh : 0 < h)
    (n : Nat) :
    ∀ (s : List α) (j : Nat), j < n → n ≤ s.length →
      Preserves 0 n s (shellInner (listColl lt) h hh s j).1 := by
  intro s j
  induction s, j using shellInner.induct (listColl lt) h hh with
  | case1 s j hhj hless ih =>
    intro hjn hlen
    rw [shellInner, if_pos hhj, if_pos hless]
    simp only
    have hex : Preserves 0 n s ((listColl lt).exchange s j (j - h)) := by
      show Preserves 0 n s (exchange s j (j - h))
      exact preserves_exchange (by omega) hjn (by omega) (by omega) hlen
    have hrec := ih (by omega) (by rw [show ((listColl lt).exchange s j (j - h)).length
      = s.length from length_exchange s j (j - h)]; exact hlen)
    exact hex.trans hrec
  | case2 s j hhj hless =>
    intro _ _
    rw [shellInner, if_pos hhj, if_neg hless]
    exact Preserves.refl 0 n s
  | case3 s j hhj =>
    intro _ _
    rw [shellInner, if_neg hhj]
    exact Preserves.refl 0 n s

theorem shellILoop_preserves [Inhabited α] (lt : α → α → Bool) (h : Nat) (hh : 0 < h)
    (n : Nat) :
    ∀ (s : List α) (i : Nat), n ≤ s.length →
      Preserves 0 n s (shellILoop (listColl lt) h hh n s i).1 := by
  intro s i
  induction s, i using shellILoop.induct (listColl lt) h hh n with
  | case1 s i hin r1 ih =>
    intro hlen
    rw [shellILoop, if_pos hin]
    simp only
    have h1 := shellInner_preserves lt h hh n s i hin hlen
    have h2 := ih (by rw [h1.1]; exact hlen)
    exact h1.trans h2
  | case2 s i hin =>
    intro _
    rw [shellILoop, if_neg hin]
    exact Preserves.refl 0 n s

theorem shellPasses_preserves [Inhabited α] (lt : α → α → Bool) (n : Nat) :
    ∀ (s : List α) (h : Nat), n ≤ s.length →
      Preserves 0 n s (shellPasses (listColl lt) n s h).1 := by
  intro s h
  induction s, h using shellPasses.induct (listColl lt) n with
  | case1 s h hh r1 ih =>
    intro hlen
    rw [shellPasses, dif_pos hh]
    simp only
    have h1 := shellILoop_preserves lt h hh n s h hlen
    have h2 := ih (by rw [h1.1]; exact hlen)
    exact h1.trans h2
  | case2 s h hh =>
    intro _
    rw [shellPasses, dif_neg hh]
    exact Preserves.refl 0 n s

end Sorter

namespace Sorter

/-! ## Behaviour on already-sorted input -/

theorem noExch_append (a b : List Ev) : noExch (a ++ b) = (noExch a && noExch b) :=
  List.all_append

theorem selfExchOnly_append (a b : List Ev) :
    selfExchOnly (a ++ b) = (selfExchOnly a && selfExchOnly b) :=
  List.all_append

/-- In a pairwise-sorted range, no element is `lt`-below any earlier element,
provided `fun a b => lt b a = false` is transitive (a consequence of `lt`
being a strict weak ordering). -/
theorem sorted_not_lt [Inhabited α] {lt : α → α → Bool} {l : List α} {bgn e : Nat}
    (hs : sortedRange lt l bgn e)
    (hnt : ∀ a b c : α, lt b a = false → lt c b = false → lt c a = false) :
    ∀ a b, bgn ≤ a → a < b → b < e → lt (l.getI b) (l.getI a) = false := by
  intro a b
  induction b using Nat.strong_induction_on with
  | _ b ihb =>
    intro ha hab hb
    rcases Nat.lt_or_ge a (b - 1) with h1 | h1
    · have hstep := hs (b - 1) (by omega) (by omega) (by omega)
      have hb1 : b - 1 + 1 = b := by omega
      rw [hb1] at hstep
      have hprev := ihb (b - 1) (by omega) ha h1 (by omega)
      exact hnt _ _ _ hprev hstep
    · have hb1 : b = a + 1 := by omega
      subst hb1
      exact hs a (by omega) ha (by omega)

theorem insInner_sorted [Inhabited α] {lt : α → α → Bool} {l : List α} {bgn e : Nat}
    (hs : sortedRange lt l bgn e) {j : Nat} (hj : j < e) :
    insInner (listColl lt) bgn l j
      = (l, if bgn < j then [Ev.less j (j - 1)] else []) := by
  by_cases hbj : bgn < j
  · have hless : lt (l.getI j) (l.getI (j - 1)) = false := by
      have := hs (j - 1) (by omega) (by omega) (by omega)
      have hj1 : j - 1 + 1 = j := by omega
      rwa [hj1] at this
    rw [insInner, if_pos hbj, if_neg (by simp [listColl, hless]), if_pos hbj]
  · rw [insInner, if_neg hbj, if_neg hbj]

theorem insLoop_sorted [Inhabited α] {lt : α → α → Bool} {l : List α} {bgn e : Nat}
    (hs : sortedRange lt l bgn e) :
    ∀ (d i : Nat), e - i ≤ d →
      (insLoop (listColl lt) bgn e l i).1 = l ∧
      noExch (insLoop (listColl lt) bgn e l i).2 = true := by
  intro d
  induction d with
  | zero =>
    intro i hd
    rw [insLoop, if_neg (by omega)]
    exact ⟨rfl, rfl⟩
  | succ d ihd =>
    intro i hd
    by_cases hie : i < e
    · rw [insLoop, if_pos hie]
      simp only
      rw [insInner_sorted hs hie]
      simp only
      obtain ⟨h1, h2⟩ := ihd (i + 1) (by omega)
      refine ⟨h1, ?_⟩
      rw [noExch_append, h2]
      by_cases hbi : bgn < i <;> simp [hbi, noExch, Ev.isExch]
    · rw [insLoop, if_neg hie]
      exact ⟨rfl, rfl⟩

theorem selScan_sorted [Inhabited α] {lt : α → α → Bool} {l : List α} {bgn e : Nat}
    (hs : sortedRange lt l bgn e) {i : Nat} (hi : bgn ≤ i) (_hie : i < e) :
    selScan (listColl lt) l e (i + 1) i
      = (i, if i + 1 < e then [Ev.less (i + 1) i] else []) := by
  by_cases hj : i + 1 < e
  · have hless : lt (l.getI (i + 1)) (l.getI i) = false := hs i (by omega) hi hj
    rw [selScan, if_pos hj, if_neg (by simp [listColl, hless]), if_pos hj]
  · rw [selScan, if_neg hj, if_neg hj]

theorem selLoop_sorted [Inhabited α] {lt : α → α → Bool} {l : List α} {bgn e : Nat}
    (hs : sortedRange lt l bgn e) :
    ∀ (d i : Nat), e - i ≤ d → bgn ≤ i →
      (selLoop (listColl lt) e l i).1 = l ∧
      selfExchOnly (selLoop (listColl lt) e l i).2 = true := by
  intro d
  induction d with
  | zero =>
    intro i hd _
    rw [selLoop, if_neg (by omega)]
    exact ⟨rfl, rfl⟩
  | succ d ihd =>
    intro i hd hbi
    by_cases hie : i < e
    · rw [selLoop, if_pos hie]
      simp only
      rw [selScan_sorted hs hbi hie]
      simp only
      have hself : (listColl lt).exchange l i i = l := exchange_self l i
      rw [hself]
      obtain ⟨h1, h2⟩ := ihd (i + 1) (by omega) (by omega)
      refine ⟨h1, ?_⟩
      rw [selfExchOnly_append]
      by_cases hj : i + 1 < e <;>
        simp [hj, selfExchOnly, h2, List.all_cons] <;>
        simpa [selfExchOnly] using h2
    · rw [selLoop, if_neg hie]
      exact ⟨rfl, rfl⟩

theorem shellInner_sorted [Inhabited α] {lt : α → α → Bool} {l : List α} {e : Nat}
    (hs : sortedRange lt l 0 e)
    (hnt : ∀ a b c : α, lt b a = false → lt c b = false → lt c a = false)
    {h : Nat} (hh : 0 < h) {j : Nat} (hj : j < e) :
    shellInner (listColl lt) h hh l j
      = (l, if h ≤ j then [Ev.less j (j - h)] else []) := by
  by_cases hhj : h ≤ j
  · have hless : lt (l.getI j) (l.getI (j - h)) = false :=
      sorted_not_lt hs hnt (j - h) j (by omega) (by omega) hj
    rw [shellInner, if_pos hhj, if_neg (by simp [listColl, hless]), if_pos hhj]
  · rw [shellInner, if_neg hhj, if_neg hhj]

theorem shellILoop_sorted [Inhabited α] {lt : α → α → Bool} {l : List α} {e : Nat}
    (hs : sortedRange lt l 0 e)
    (hnt : ∀ a b c : α, lt b a = false → lt c b = false → lt c a = false)
    {h : Nat} (hh : 0 < h) {n : Nat} (hn : n ≤ e) :
    ∀ (d i : Nat), n - i ≤ d →
      (shellILoop (listColl lt) h hh n l i).1 = l ∧
      noExch (shellILoop (listColl lt) h hh n l i).2 = true := by
  intro d
  induction d with
  | zero =>
    intro i hd
    rw [shellILoop, if_neg (by omega)]
    exact ⟨rfl, rfl⟩
  | succ d ihd =>
    intro i hd
    by_cases hin : i < n
    · rw [shellILoop, if_pos hin]
      simp only
      rw [shellInner_sorted hs hnt hh (by omega)]
      simp only
      obtain ⟨h1, h2⟩ := ihd (i + 1) (by omega)
      refine ⟨h1, ?_⟩
      rw [noExch_append, h2]
      by_cases hhi : h ≤ i <;> simp [hhi, noExch, Ev.isExch]
    · rw [shellILoop, if_neg hin]
      exact ⟨rfl, rfl⟩

theorem shellPasses_sorted [Inhabited α] {lt : α → α → Bool} {l : List α} {e : Nat}
    (hs : sortedRange lt l 0 e)
    (hnt : ∀ a b c : α, lt b a = false → lt c b = false → lt c a = false)
    {n : Nat} (hn : n ≤ e) :
    ∀ h : Nat,
      (shellPasses (listColl lt) n l h).1 = l ∧
      noExch (shellPasses (listColl lt) n l h).2 = true := by
  intro h
  induction h using Nat.strong_induction_on with
  | _ h ihh =>
    by_cases hh : 1 ≤ h
    · rw [shellPasses, dif_pos hh]
      simp only
      obtain ⟨h1, h2⟩ := shellILoop_sorted hs hnt hh hn n h (by omega)
      rw [h1]
      obtain ⟨h3, h4⟩ := ihh (h / 3) (Nat.div_lt_self (by omega) (by omega))
      refine ⟨h3, ?_⟩
      rw [noExch_append, h2, h4]
      rfl
    · rw [shellPasses, dif_neg hh]
      exact ⟨rfl, rfl⟩

/-! ## The gap sequence -/

/-- The increment sequence 1, 4, 13, 40, 121, …: `gseq (k+1) = 3 * gseq k + 1`. -/
def gseq : Nat → Nat
  | 0 => 1
  | k + 1 => 3 * gseq k + 1

theorem shellGap_spec (n : Nat) : ∀ (d j : Nat), n / 3 - gseq j ≤ d →
    ∃ k, j ≤ k ∧ shellGap n (gseq j) = gseq k ∧ n / 3 ≤ gseq k ∧
      ∀ m, j ≤ m → m < k → gseq m < n / 3 := by
  intro d
  induction d with
  | zero =>
    intro j hd
    rw [shellGap, if_neg (by omega)]
    exact ⟨j, Nat.le_refl j, rfl, by omega, fun m h1 h2 => by omega⟩
  | succ d ihd =>
    intro j hd
    by_cases hlt : gseq j < n / 3
    · rw [shellGap, if_pos hlt]
      have h3 : 3 * gseq j + 1 = gseq (j + 1) := rfl
      rw [h3]
      obtain ⟨k, hk1, hk2, hk3, hk4⟩ := ihd (j + 1) (by
        have hg : gseq (j + 1) = 3 * gseq j + 1 := rfl
        omega)
      refine ⟨k, by omega, hk2, hk3, fun m h1 h2 => ?_⟩
      rcases Nat.eq_or_lt_of_le h1 with h | h
      · rw [← h]; exact hlt
      · exact hk4 m (by omega) h2
    · rw [shellGap, if_neg hlt]
      exact ⟨j, Nat.le_refl j, rfl, by omega, fun m h1 h2 => by omega⟩

end Sorter

namespace Sorter

/-! ## The claims -/

/-- C1: the spec claims all three algorithms leave `[begin, end)` non-decreasing.
The code refutes this for `Selection`: because `coll.Less(j, min)` sits in the
inner `for`'s guard, the scan aborts at the first non-smaller element.  On
`[5,3,1,4,2]` with `begin = 0, end = 5` (the spec's own Scenario 2) the result
is `[1,3,2,4,5]`, where `less(2,1)` still holds — the range is not
non-decreasing, violating the claimed sortedness at `k = 1`. -/
theorem claim_C1_selection_unsorted :
    (Selection (listColl ltInt) [5, 3, 1, 4, 2] 0 5).1 = [1, 3, 2, 4, 5] ∧
    ltInt ((Selection (listColl ltInt) [5, 3, 1, 4, 2] 0 5).1.getI 2)
      ((Selection (listColl ltInt) [5, 3, 1, 4, 2] 0 5).1.getI 1) = true ∧
    ¬ sortedRange ltInt [1, 3, 2, 4, 5] 0 5 := by
  refine ⟨?_, ?_, by decide⟩ <;>
    simp [Selection, selLoop, selScan, listColl, exchange, ltInt, List.getI]

/-- C2: the spec claims the inner scan of `Selection` visits the whole
remainder `[i+1, end)` and ends with `min` at the smallest element of
`[i, end)`.  The code refutes this: on `[2,3,1]` with `begin = 0, end = 3`,
at the outer iteration `i = 0` the scan makes a single `Less(1, 0)` call,
stops (the guard `j < end && coll.Less(j, min)` fails), and returns
`min = 0`, although position 2 holds a strictly smaller element.
Consequently the final result `[2,1,3]` is not even sorted. -/
theorem claim_C2_scan_stops_early :
    selScan (listColl ltInt) [2, 3, 1] 3 1 0 = (0, [Ev.less 1 0]) ∧
    ltInt (([2, 3, 1] : List Int).getI 2) (([2, 3, 1] : List Int).getI 0) = true ∧
    (Selection (listColl ltInt) [2, 3, 1] 0 3).1 = [2, 1, 3] := by
  refine ⟨?_, by decide, ?_⟩ <;>
    simp [Selection, selLoop, selScan, listColl, exchange, ltInt, List.getI]

/-- C3, counterexample: for `Shell` with `begin = 1, end = 3` on `[5,1,9]`
the multiset stored at positions `[1, 3)` changes from `{1, 9}` to `{5, 9}`:
`Shell` ignores `begin` and rearranges positions `[0, end-begin)` instead. -/
theorem claim_C3_counterexample :
    (Shell (listColl ltInt) [5, 1, 9] 1 3).1 = [1, 5, 9] ∧
    sliceMS ((Shell (listColl ltInt) [5, 1, 9] 1 3).1) 1 3
      ≠ sliceMS ([5, 1, 9] : List Int) 1 3 := by
  constructor
  · simp [Shell, shellPasses, shellILoop, shellInner, shellGap, listColl, exchange,
      ltInt, List.getI]
  · simp [Shell, shellPasses, shellILoop, shellInner, shellGap, listColl, exchange,
      ltInt, List.getI, sliceMS]
    decide

/-- C3 (amended): `Selection` and `Insertion` preserve the multiset of
elements stored at positions `[begin, end)` for every valid range; `Shell`
instead preserves the multiset stored at positions `[0, end - begin)` (hence
at `[begin, end)` exactly when `begin = 0`).  In all cases element values are
only reordered (the whole list stays a permutation of the original), never
created, destroyed or modified. -/
theorem claim_C3_amended [Inhabited α] (lt : α → α → Bool) (l : List α) (bgn e : Nat)
    (hbe : bgn ≤ e) (he : e ≤ l.length) :
    sliceMS (Selection (listColl lt) l bgn e).1 bgn e = sliceMS l bgn e ∧
    sliceMS (Insertion (listColl lt) l bgn e).1 bgn e = sliceMS l bgn e ∧
    sliceMS (Shell (listColl lt) l bgn e).1 0 (e - bgn) = sliceMS l 0 (e - bgn) := by
  refine ⟨?_, ?_, ?_⟩
  · exact (selLoop_preserves lt e bgn l bgn (Nat.le_refl bgn) he).sliceMS_eq hbe he
  · exact (insLoop_preserves lt bgn e l bgn he).sliceMS_eq hbe he
  · exact (shellPasses_preserves lt (e - bgn) l (shellGap (e - bgn) 1)
      (by omega)).sliceMS_eq (by omega) (by omega)

/-- Witness for C3 (amended) at `l = [3,1,2]`, `begin = 0`, `end = 3`. -/
theorem claim_C3_witness :
    (0 ≤ 3 ∧ 3 ≤ ([3, 1, 2] : List Int).length) ∧
    (sliceMS (Selection (listColl ltInt) [3, 1, 2] 0 3).1 0 3
        = sliceMS ([3, 1, 2] : List Int) 0 3 ∧
      sliceMS (Insertion (listColl ltInt) [3, 1, 2] 0 3).1 0 3
        = sliceMS ([3, 1, 2] : List Int) 0 3 ∧
      sliceMS (Shell (listColl ltInt) [3, 1, 2] 0 3).1 0 (3 - 0)
        = sliceMS ([3, 1, 2] : List Int) 0 (3 - 0)) :=
  ⟨⟨by decide, by decide⟩, claim_C3_amended ltInt [3, 1, 2] 0 3 (by decide) (by decide)⟩

/-- C4: `Shell(coll, begin, end)` and `Shell(coll, 0, end-begin)` produce the
same final collection state and the same sequence of `Less` / `Exchange`
calls, for every collection: the code only ever uses `end - bgn` and indexes
at absolute positions `i` and `j`, so for `begin ≠ 0` it operates on
`[0, end-begin)` rather than on `[begin, end)`, and for `begin = 0` it sorts
`[0, end)` as documented. -/
theorem claim_C4_shell_ignores_bgn (C : Sortable σ) (s : σ) (bgn e : Nat) :
    Shell C s bgn e = Shell C s 0 (e - bgn) := rfl

/-- C5, counterexample: for `n = 30` (so `n / 3 = 10`) the gap loop ends with
`h = 13`, which is not less than `n / 3`; the claim that `h` is the largest
sequence value below `n / 3` (which would be 4, as `gseq 1 = 4 < 10 ≤ gseq 2`)
is false. -/
theorem claim_C5_counterexample :
    shellGap 30 1 = 13 ∧ ¬ shellGap 30 1 < 30 / 3 ∧ gseq 1 = 4 ∧ gseq 1 < 30 / 3 := by
  refine ⟨?_, ?_, rfl, by decide⟩ <;> simp [shellGap]

/-- C5 (amended): after the gap-initialization loop, `h` is a value of the
sequence 1, 4, 13, 40, 121, … and it is the *smallest* value of that
sequence that is `≥ n / 3` (every earlier sequence value is `< n / 3`); it is
not the largest value below `n / 3`. -/
theorem claim_C5_amended (n : Nat) :
    ∃ k, shellGap n 1 = gseq k ∧ n / 3 ≤ gseq k ∧ ∀ m, m < k → gseq m < n / 3 := by
  obtain ⟨k, _, h2, h3, h4⟩ := shellGap_spec n (n / 3) 0 (by
    have hg : gseq 0 = 1 := rfl
    omega)
  exact ⟨k, h2, h3, fun m hm => h4 m (Nat.zero_le m) hm⟩

/-- C6: `By(lesser).Sort(coll)` panics with `"passing a non-slice type"` on a
non-slice argument (as do the adapter's `Length`/`Less`/`Exchange`); on a
slice it builds the adapter — whose length is the slice length, whose `Less`
applies the comparator to the elements at the two positions, and whose
`Exchange` swaps the two slice elements via a temporary — and sorts the whole
slice by calling `Shell` over `[0, length)`, returning nothing but the
mutated slice. -/
theorem claim_C6_adapter [Inhabited α] (b : By α) :
    By.Sort b (CollArg.nonSlice : CollArg α) = .error "passing a non-slice type" ∧
    (∀ l : List α, By.Sort b (CollArg.slice l)
        = .ok (.slice (Shell (listColl b) l 0 l.length).1)) ∧
    (∀ l : List α, multiKeySorter.Length ⟨.slice l, b⟩ = .ok l.length) ∧
    multiKeySorter.Length (⟨.nonSlice, b⟩ : multiKeySorter α)
      = .error "passing a non-slice type" ∧
    (∀ (l : List α) (i j : Nat), multiKeySorter.Exchange ⟨.slice l, b⟩ i j
        = .ok ⟨.slice (exchange l i j), b⟩) ∧
    (∀ (l : List α) (i j : Nat), multiKeySorter.Less ⟨.slice l, b⟩ i j
        = .ok (b (l.getI i) (l.getI j))) :=
  ⟨rfl, fun _ => rfl, fun _ => rfl, rfl, fun _ _ _ => rfl, fun _ _ _ => rfl⟩

/-- C7, counterexample: `[5,1,9]` is sorted on the range `[1, 3)`
(`not less(2,1)` holds), yet `Shell` with `begin = 1, end = 3` performs an
`Exchange(1, 0)` call and changes the collection to `[1,5,9]` — sorting an
already-sorted range does not leave the collection unchanged, and `Shell`
does not perform zero exchanges on it. -/
theorem claim_C7_counterexample :
    sortedRange ltInt [5, 1, 9] 1 3 ∧
    (Shell (listColl ltInt) [5, 1, 9] 1 3).1 = [1, 5, 9] ∧
    (Shell (listColl ltInt) [5, 1, 9] 1 3).2 = [Ev.less 1 0, Ev.exch 1 0] ∧
    (Shell (listColl ltInt) [5, 1, 9] 1 3).1 ≠ [5, 1, 9] := by
  refine ⟨by decide, ?_, ?_, ?_⟩ <;>
    simp [Shell, shellPasses, shellILoop, shellInner, shellGap, listColl, exchange,
      ltInt, List.getI]

/-- C7 (amended): on a range `[begin, end)` that is already sorted (and with
`fun a b => lt b a = false` transitive, as `less` being a strict weak ordering
guarantees): `Insertion` performs zero `Exchange` calls and leaves the
collection unchanged; `Selection` leaves the collection unchanged but its
`Exchange` calls are all self-exchanges `Exchange(i, i)`; and `Shell` performs
zero `Exchange` calls and leaves the collection unchanged when `begin = 0`
(for `begin ≠ 0` it may modify the collection, see the counterexample). -/
theorem claim_C7_amended [Inhabited α] {lt : α → α → Bool} {l : List α} {bgn e : Nat}
    (hs : sortedRange lt l bgn e)
    (hnt : ∀ a b c : α, lt b a = false → lt c b = false → lt c a = false) :
    (Insertion (listColl lt) l bgn e).1 = l ∧
    noExch (Insertion (listColl lt) l bgn e).2 = true ∧
    (Selection (listColl lt) l bgn e).1 = l ∧
    selfExchOnly (Selection (listColl lt) l bgn e).2 = true ∧
    (bgn = 0 →
      (Shell (listColl lt) l 0 e).1 = l ∧ noExch (Shell (listColl lt) l 0 e).2 = true) := by
  obtain ⟨hi1, hi2⟩ := insLoop_sorted hs e bgn (by omega)
  obtain ⟨hs1, hs2⟩ := selLoop_sorted hs e bgn (by omega) (Nat.le_refl bgn)
  refine ⟨hi1, hi2, hs1, hs2, ?_⟩
  intro hbgn
  subst hbgn
  exact shellPasses_sorted hs hnt (Nat.le_refl e) (shellGap (e - 0) 1)

/-- Witness for C7 (amended) at `l = [1,2,3]`, `begin = 0`, `end = 3`,
under the integer order. -/
theorem claim_C7_witness :
    (sortedRange ltInt [1, 2, 3] 0 3 ∧
      (∀ a b c : Int, ltInt b a = false → ltInt c b = false → ltInt c a = false)) ∧
    ((Insertion (listColl ltInt) [1, 2, 3] 0 3).1 = [1, 2, 3] ∧
      noExch (Insertion (listColl ltInt) [1, 2, 3] 0 3).2 = true ∧
      (Selection (listColl ltInt) [1, 2, 3] 0 3).1 = [1, 2, 3] ∧
      selfExchOnly (Selection (listColl ltInt) [1, 2, 3] 0 3).2 = true ∧
      (0 = 0 →
        (Shell (listColl ltInt) [1, 2, 3] 0 3).1 = [1, 2, 3] ∧
        noExch (Shell (listColl ltInt) [1, 2, 3] 0 3).2 = true)) :=
  ⟨⟨by decide, fun a b c h1 h2 => by
      simp only [ltInt, decide_eq_false_iff_not, Int.not_lt] at *
      omega⟩,
    claim_C7_amended (by decide) (fun a b c h1 h2 => by
      simp only [ltInt, decide_eq_false_iff_not, Int.not_lt] at *
      omega)⟩

/-- C8, counterexample: on the single-element range `begin = 0, end = 1`,
`Selection` does not make zero `Exchange` calls: it performs the self-exchange
`Exchange(0, 0)` (the collection is still left unchanged, and no `Less` call
is made). -/
theorem claim_C8_counterexample :
    Selection (listColl ltInt) [7] 0 1 = ([7], [Ev.exch 0 0]) ∧
    (Selection (listColl ltInt) [7] 0 1).2 ≠ [] := by
  refine ⟨?_, ?_⟩ <;>
    simp [Selection, selLoop, selScan, listColl, exchange, ltInt, List.getI]

/-- C8 (amended): with `begin = end`, all three algorithms make zero `Less`
and zero `Exchange` calls and leave the collection unchanged.  On a
single-element range `end = begin + 1`, `Insertion` and `Shell` also make
zero calls and leave the collection unchanged, while `Selection` makes zero
`Less` calls but exactly one `Exchange` call — the self-exchange
`Exchange(begin, begin)` — which leaves the collection unchanged. -/
theorem claim_C8_amended [Inhabited α] (lt : α → α → Bool) (l : List α) (bgn : Nat) :
    Selection (listColl lt) l bgn bgn = (l, []) ∧
    Insertion (listColl lt) l bgn bgn = (l, []) ∧
    Shell (listColl lt) l bgn bgn = (l, []) ∧
    Insertion (listColl lt) l bgn (bgn + 1) = (l, []) ∧
    Shell (listColl lt) l bgn (bgn + 1) = (l, []) ∧
    Selection (listColl lt) l bgn (bgn + 1) = (l, [Ev.exch bgn bgn]) := by
  have hgap0 : shellGap 0 1 = 1 := by rw [shellGap]; simp
  have hgap1 : shellGap 1 1 = 1 := by rw [shellGap]; simp
  refine ⟨?_, ?_, ?_, ?_, ?_, ?_⟩
  · rw [Selection, selLoop, if_neg (by omega)]
  · rw [Insertion, insLoop, if_neg (by omega)]
  · rw [Shell, Nat.sub_self, hgap0, shellPasses, dif_pos (by omega)]
    simp only
    rw [shellILoop, if_neg (by omega), shellPasses]
    norm_num
  · rw [Insertion, insLoop, if_pos (by omega)]
    simp only
    rw [insInner, if_neg (by omega), insLoop, if_neg (by omega)]
    rfl
  · rw [Shell, show bgn + 1 - bgn = 1 from by omega, hgap1, shellPasses,
      dif_pos (by omega)]
    simp only
    rw [shellILoop, if_neg (by omega), shellPasses]
    norm_num
  · rw [Selection, selLoop, if_pos (by omega)]
    simp only
    rw [selScan, if_neg (by omega)]
    simp only
    have hx : (listColl lt).exchange l bgn bgn = l := exchange_self l bgn
    rw [hx, selLoop, if_neg (by omega)]
    rfl

/-- C9: `Shell` on `[9,8,7,6,5,4,3,2,1]` with `begin = 0, end = 9` under the
integer order yields `[1,2,3,4,5,6,7,8,9]`. -/
theorem claim_C9_shell_scenario :
    (Shell (listColl ltInt) [9, 8, 7, 6, 5, 4, 3, 2, 1] 0 9).1
      = [1, 2, 3, 4, 5, 6, 7, 8, 9] := by
  simp [Shell, shellPasses, shellILoop, shellInner, shellGap, listColl, exchange,
    ltInt, List.getI]

/-- C10: `Insertion` on `[9,8,1,2,3]` with `begin = 1, end = 4` under the
integer order yields `[9,1,2,8,3]`: only positions 1..3 are rearranged, and
positions 0 and 4 keep their elements. -/
theorem claim_C10_insertion_subrange :
    (Insertion (listColl ltInt) [9, 8, 1, 2, 3] 1 4).1 = [9, 1, 2, 8, 3] := by
  simp [Insertion, insLoop, insInner, listColl, exchange, ltInt, List.getI]

end Sorter
